import Mathlib

/-!
Verification of the core matching pipeline of `job_match.py`.

The Python source is shallowly embedded: job records become a Lean structure,
Python strings become `List Char` (compared by code point, as CPython does),
JSON values parsed by `json.loads` become an inductive type, and the external
service calls (`langdetect.detect`, `ollama.embeddings`, `ollama.generate`,
ChromaDB) are passed in as explicit function parameters returning `Except`,
so that an uncaught Python exception is modelled by an `Except.error` that
propagates through `do`-notation exactly where the source has no `try`.
-/

namespace JobMatch

/-- Python strings, modelled as lists of characters (code points). -/
abbrev Str := List Char

/-- The characters that CPython's `str.split()` (and `int(str)`) treat as
whitespace, restricted to the ASCII range `0x00`–`0x7F` (the only characters
that survive the pipeline's non-ASCII stripping): TAB, LF, VT, FF, CR,
FS, GS, RS, US and SPACE. -/
def isPySpace (c : Char) : Bool :=
  [9, 10, 11, 12, 13, 28, 29, 30, 31, 32].contains c.toNat

/-- CPython's `<` on strings: lexicographic comparison by code point. -/
def strLt : Str → Str → Bool
  | [], [] => false
  | [], _ :: _ => true
  | _ :: _, [] => false
  | a :: as, b :: bs =>
    if a.toNat < b.toNat then true
    else if b.toNat < a.toNat then false
    else strLt as bs

/-- The decimal digit characters, indexed by value. -/
def digitChar (d : Nat) : Char :=
  ['0', '1', '2', '3', '4', '5', '6', '7', '8', '9'].getD d '0'

/-- CPython's `str(n)` for a natural number: decimal digits, most significant
first. -/
def natToChars (n : Nat) : Str :=
  if _h : n < 10 then [digitChar n]
  else natToChars (n / 10) ++ [digitChar (n % 10)]
termination_by n
decreasing_by
  exact Nat.div_lt_self (by omega) (by omega)

/-- CPython's `str(n)` for an integer. -/
def intToChars : Int → Str
  | .ofNat m => natToChars m
  | .negSucc m => '-' :: natToChars (m + 1)

/-- Value of a nonempty all-digit string, most significant digit first. -/
def digitsVal (ds : Str) : Nat :=
  ds.foldl (fun a c => a * 10 + (c.toNat - 48)) 0

/-- CPython's `int(s)` on a string: strip surrounding whitespace, allow one
optional sign, then require at least one decimal digit; anything else raises
`ValueError` (modelled as `Except.error`).  (CPython additionally accepts
single underscores between digits and non-ASCII decimal digits; those inputs
are outside this model.) -/
def natFromDigits (ds : Str) : Except Unit Nat :=
  if !ds.isEmpty && ds.all Char.isDigit then .ok (digitsVal ds) else .error ()

def pyIntOfStr (s : Str) : Except Unit Int :=
  let t := ((s.dropWhile isPySpace).reverse.dropWhile isPySpace).reverse
  match t with
  | '+' :: ds => (natFromDigits ds).map (fun n => (n : Int))
  | '-' :: ds => (natFromDigits ds).map (fun n => -(n : Int))
  | ds => (natFromDigits ds).map (fun n => (n : Int))

/-! ## JSON values (`json.loads` results) and Python coercions

`json.loads` duplicates: on duplicate keys the last binding wins, which the
lookup below reproduces on the association list.  JSON floats are outside
this model (no claim depends on them); JSON numbers are modelled as `Int`. -/

inductive JVal where
  | null : JVal
  | bool (b : Bool) : JVal
  | int (n : Int) : JVal
  | str (s : Str) : JVal
  | arr (xs : List JVal) : JVal
  | obj (kvs : List (Str × JVal)) : JVal

/-- Subscripting a parsed JSON object, `response[key]`: the last binding of
the key wins (as in a Python dict built by `json.loads`); a missing key is a
`KeyError` (`none`). -/
def jlookup (kvs : List (Str × JVal)) (k : Str) : Option JVal :=
  (kvs.reverse.find? (fun p => p.1 == k)).map (fun p => p.2)

/-- CPython's `int(v)` on a parsed JSON value: identity on integers,
`True ↦ 1` / `False ↦ 0` on booleans, string parsing on strings, and a
`TypeError` (`Except.error`) on `None`, lists and dicts. -/
def pyInt : JVal → Except Unit Int
  | .int n => .ok n
  | .bool b => .ok (if b then 1 else 0)
  | .str s => pyIntOfStr s
  | _ => .error ()

/-- CPython's `str(v)` on a parsed JSON value.  `str()` of a list or dict is
its `repr`; that case is left as `[]` because the curation loop only ever
applies `str` to a value on which `int()` succeeded, which rules lists and
dicts out. -/
def pyStr : JVal → Str
  | .null => "None".data
  | .bool b => if b then "True".data else "False".data
  | .int n => intToChars n
  | .str s => s
  | .arr _ => []
  | .obj _ => []

/-! ## Data model: job records and index entries -/

/-- A job record, as built by `process_jobs_csv` (lines 158–178): the eight
CSV-derived fields, plus the three enrichment fields written by the curation
loop (lines 229–231), absent (`none`) until assigned.  The `match` key of the
Python dict is called `match_s` because `match` is a Lean keyword. -/
structure Job where
  id : Str
  title : Str
  url : Str
  location : Str
  date : Str
  applicants : Str
  description : Str
  company : Str
  summary : Option JVal := none
  match_s : Option JVal := none
  suitability : Option Str := none

/-- One stored row of the ChromaDB collection: `(id, embedding, document)`. -/
structure Entry where
  id : Str
  embedding : List Int
  document : Str

/-- Embedding vectors.  Their numeric content is irrelevant to every claim,
so components are modelled as integers rather than floats. -/
abbrev Vec := List Int

/-- Errors raised by the external services (`langdetect`, `ollama`). -/
inductive Err where
  | langError : Err
  | serviceError : Err

/-- `LANG = "en"` (line 17). -/
def LANG : Str := "en".data

/-! ## Embedder (`create_embedding`, line 46–58)

Line 56 is `text = ' '.join(re.sub(r'[^\x00-\x7F]+', '', text).split())`:
delete every character above `0x7F`, split on whitespace runs discarding
empty pieces, and re-join the pieces with single spaces. -/

/-- `re.sub(r'[^\x00-\x7F]+', '', text)`: delete every character whose code
point exceeds `0x7F`. -/
def removeNonAscii (s : Str) : Str :=
  s.filter (fun c => c.toNat ≤ 127)

/-- CPython's `text.split()` (no separator argument): the maximal runs of
non-whitespace characters, with leading/trailing/repeated whitespace
producing no empty pieces. -/
def pySplit (l : Str) : List Str :=
  if _h : (l.dropWhile isPySpace).isEmpty then []
  else
    ((l.dropWhile isPySpace).takeWhile (fun x => !isPySpace x)) ::
      pySplit ((l.dropWhile isPySpace).dropWhile (fun x => !isPySpace x))
termination_by l.length
decreasing_by
  rcases ht : l.dropWhile isPySpace with _ | ⟨c, cs⟩
  · rw [ht] at _h
    simp at _h
  · have h1 : (c :: cs).length ≤ l.length := by
      rw [← ht]
      exact (List.dropWhile_sublist _).length_le
    have hc : isPySpace c = false := by
      have h0 : 0 < (l.dropWhile isPySpace).length := by rw [ht]; simp
      have h2 := l.dropWhile_get_zero_not (p := isPySpace) h0
      have h3 : (l.dropWhile isPySpace).get ⟨0, h0⟩ = c := by
        simp [ht]
      rw [h3] at h2
      simpa using h2
    rw [List.dropWhile_cons]
    simp only [hc, Bool.not_false, if_true]
    have h2 : (cs.dropWhile (fun x => !isPySpace x)).length ≤ cs.length :=
      (List.dropWhile_sublist _).length_le
    simp only [List.length_cons] at h1
    omega

/-- CPython's `' '.join(pieces)`. -/
def joinWords : List Str → Str
  | [] => []
  | [w] => w
  | w :: ws => w ++ ' ' :: joinWords ws

/-- Line 56 of the source, as a whole. -/
def pyPreprocess (s : Str) : Str :=
  joinWords (pySplit (removeNonAscii s))

/-- `create_embedding` (lines 46–58): preprocess the text, then hand it to
the external embedding service (`ollama.embeddings`), whose call is the
parameter `embedSvc`; a service failure propagates (the function has no
`try`). -/
def create_embedding (embedSvc : Str → Except Err Vec) (text : Str) :
    Except Err Vec :=
  embedSvc (pyPreprocess text)

/-! Spec-side formulation of the same preprocessing, following the words of
the specification: *"strip non-ASCII characters …, then collapse runs of
whitespace to single spaces and trim."*  Used only to be compared with
`pyPreprocess`. -/

/-- Modelled from the spec: collapse every maximal run of whitespace to a
single space. -/
def collapseWs : Str → Str
  | [] => []
  | c :: cs =>
    if isPySpace c then ' ' :: collapseWs (cs.dropWhile isPySpace)
    else c :: collapseWs cs
termination_by l => l.length
decreasing_by
  · have h1 : (cs.dropWhile isPySpace).length ≤ cs.length :=
      (List.dropWhile_sublist _).length_le
    simp only [List.length_cons]
    omega
  · simp only [List.length_cons]
    omega

/-- Modelled from the spec: trim leading whitespace. -/
def trimStartWs (s : Str) : Str := s.dropWhile isPySpace

/-- Modelled from the spec: trim trailing whitespace. -/
def trimEndWs : Str → Str
  | [] => []
  | c :: cs =>
    let r := trimEndWs cs
    if r.isEmpty then (if isPySpace c then [] else [c]) else c :: r

/-- Modelled from the spec: the whole normalization in the spec's words. -/
def specNormalize (s : Str) : Str :=
  trimEndWs (trimStartWs (collapseWs (removeNonAscii s)))

/-! ## JSON extraction (line 226)

Line 226 applies `re.sub(r"^[^{]*|[^}]*$", "", raw)` before `json.loads`.
Scanning left to right, the alternation first removes the maximal run of
non-`{` characters anchored at the start (possibly the whole string); after
that, `^` can no longer match, and `[^}]*$` can only match at a position from
which no `}` remains, i.e. at the first position after the last `}` — where
it removes the rest of the string.  (If no `}` remains at or after the first
`{`, everything from the first `{` on is also removed.)  The net effect on
the string is therefore: drop everything before the first `{`, then drop
everything after the last `}`, yielding `[]` when no `{` or no subsequent `}`
exists. -/

def extractJson (s : Str) : Str :=
  let t := s.dropWhile (fun c => c != '\x7b')
  ((t.reverse.dropWhile (fun c => c != '\x7d')).reverse)

/-! ## Deduplicator (`remove_exact_duplicates`, lines 117–136)

The Python function hashes each dict as `tuple(sorted(d.items()))`, a
canonical form under which two dicts collide exactly when they are equal;
membership in `seen` is therefore record equality, modelled by
`DecidableEq`. -/

def dedupGo {α : Type} [DecidableEq α] (seen : List α) : List α → List α
  | [] => []
  | d :: ds =>
    if d ∈ seen then dedupGo seen ds
    else d :: dedupGo (d :: seen) ds

def remove_exact_duplicates {α : Type} [DecidableEq α] (lst : List α) :
    List α :=
  dedupGo [] lst

/-! ## Retriever build phase (`store_embeddings`, `embed_jobs`, lines 61–155)

`COLLECTION.add` may raise (duplicate id, length mismatch, …); its model
`chromaAdd` fails atomically in those cases.  `store_embeddings` wraps it in
`try`/`except`, turning the exception into a `False` return (lines 70–76) —
the only exception handler in the whole build phase. -/

def chromaAdd (col : List Entry) (ids : List Str) (embeddings : List Vec)
    (documents : List Str) : Except Unit (List Entry) :=
  if (ids.length == embeddings.length) && (ids.length == documents.length)
      && ids.all (fun i => col.all (fun e => e.id != i)) then
    .ok (col ++ (ids.zip (embeddings.zip documents)).map
      (fun p => ⟨p.1, p.2.1, p.2.2⟩))
  else .error ()

def store_embeddings (col : List Entry) (ids : List Str)
    (embeddings : List Vec) (documents : List Str) : List Entry × Bool :=
  match chromaAdd col ids embeddings documents with
  | .ok col' => (col', true)
  | .error _ => (col, false)

/-- `embed_jobs` (lines 139–155): for each job, detect the language of its
description; index the job when it matches `LANG`, skip it otherwise.  The
external calls `langdetect.detect` and `ollama.embeddings` are the
parameters `detect` and `embedSvc`; the loop body contains no `try`, so an
exception in either call propagates out of the whole loop, which the `do`
bind reproduces. -/
def embed_jobs (detect : Str → Except Err Str)
    (embedSvc : Str → Except Err Vec) (col : List Entry) :
    List Job → Except Err (List Entry)
  | [] => .ok col
  | job :: rest => do
      let lang ← detect job.description
      if lang == LANG then do
        let embedding ← create_embedding embedSvc
          (job.title ++ job.description ++ job.company)
        let col' := (store_embeddings col [job.id] [embedding]
          [job.description]).1
        embed_jobs detect embedSvc col' rest
      else
        embed_jobs detect embedSvc col rest

/-! ## Curator (the loop of lines 215–234)

Per candidate job the loop runs, inside one `try`:

    response = json.loads(re.sub(r"^[^{]*|[^}]*$", "", summary['response']))
    if int(response['Suitability']) > 0:
        current_job['summary'] = response['Job_summary']
        current_job['match'] = response['Match_summary']
        current_job['suitability'] = str(response['Suitability'])
        final_jobs.append(current_job)

Any exception (parse failure, `KeyError`, `int()` failure) jumps to the
`except` which merely prints, so the loop continues with the next candidate;
the mutations already performed on `current_job` stay.  `curateOne` returns
the record's post-state and whether it was appended to `final_jobs`; its
input is the outcome of `json.loads` on the extracted response text
(`Except.error` when extraction/parsing raised). -/

def curateOne (job : Job) (parsed : Except Unit JVal) : Job × Bool :=
  match parsed with
  | .error _ => (job, false)
  | .ok response =>
    match response with
    | .obj kvs =>
      match jlookup kvs "Suitability".data with
      | none => (job, false)
      | some v =>
        match pyInt v with
        | .error _ => (job, false)
        | .ok k =>
          if 0 < k then
            match jlookup kvs "Job_summary".data with
            | none => (job, false)
            | some js =>
              let job1 := { job with summary := some js }
              match jlookup kvs "Match_summary".data with
              | none => (job1, false)
              | some ms =>
                let job2 := { job1 with match_s := some ms }
                let job3 := { job2 with suitability := some (pyStr v) }
                (job3, true)
          else (job, false)
    | _ => (job, false)

/-- The whole curation loop: `final_jobs` accumulated over the candidates in
retrieval order, each paired with the parse outcome of its LLM response. -/
def curateJobs : List (Job × Except Unit JVal) → List Job
  | [] => []
  | (job, parsed) :: rest =>
    let r := curateOne job parsed
    if r.2 then r.1 :: curateJobs rest else curateJobs rest

/-! ## Ranker (line 237)

`final_jobs = sorted(final_jobs, key=lambda d: d.get("suitability", 2), reverse=True)`.

The key of a curated record is its *string* `suitability`; a record lacking
the field gets the *integer* `2`.  CPython's sort is stable; `reverse=True`
sorts descending while keeping equal keys in input order; comparing an `int`
key with a `str` key raises `TypeError`, and a sort over a list holding keys
of both kinds always performs such a comparison (two never-ordered elements
must be compared directly), so it always raises.  The model is a stable
descending insertion sort over the same partial comparison; on lists whose
keys are totally ordered its output coincides with CPython's (stable sorts
agree), and it fails exactly on the mixed lists on which CPython raises. -/

inductive SortKey where
  | i (n : Int) : SortKey
  | s (cs : Str) : SortKey
deriving DecidableEq

/-- `d.get("suitability", 2)`. -/
def sortKey (j : Job) : SortKey :=
  match j.suitability with
  | some cs => .s cs
  | none => .i 2

/-- Python `<` on two sort keys; `TypeError` on mixed types. -/
def pyLtKey : SortKey → SortKey → Except Unit Bool
  | .i a, .i b => .ok (decide (a < b))
  | .s a, .s b => .ok (strLt a b)
  | _, _ => .error ()

/-- The kind of a sort key: `true` for a string key. -/
def keyIsStr : SortKey → Bool
  | .s _ => true
  | .i _ => false

/-- Insert `x` (an element earlier in the input than everything in `r`) into
the already descending-sorted `r`: `x` goes before the first `y` it is not
strictly below, which keeps equal keys in input order. -/
def insertRevE (x : Job) : List Job → Except Unit (List Job)
  | [] => .ok [x]
  | y :: ys => do
      let b ← pyLtKey (sortKey x) (sortKey y)
      if b then do
        let r ← insertRevE x ys
        .ok (y :: r)
      else .ok (x :: y :: ys)

def pySortRevE : List Job → Except Unit (List Job)
  | [] => .ok []
  | x :: xs => do
      let r ← pySortRevE xs
      insertRevE x r

/-- Line 237: the Ranker. -/
def rank (jobs : List Job) : Except Unit (List Job) :=
  pySortRevE jobs

/-- Numeric suitability of a record, when its stored string parses as an
integer; used to state what a *numeric* descending order would be. -/
def suitNum (j : Job) : Option Int :=
  match j.suitability with
  | some s => match pyIntOfStr s with
    | .ok n => some n
    | .error _ => none
  | none => none

/-- `suitGeB a b`: `a`'s numeric suitability is at least `b`'s (vacuously
true when either does not parse). -/
def suitGeB (a b : Job) : Bool :=
  match suitNum a, suitNum b with
  | some x, some y => decide (y ≤ x)
  | _, _ => true

/-- The list is numerically descending in suitability. -/
def sortedDescNumB : List Job → Bool
  | a :: b :: r => suitGeB a b && sortedDescNumB (b :: r)
  | _ => true

/-! ## Concrete inputs used to instantiate the theorems -/

/-- A record with every CSV field empty; the concrete instances below vary
only the fields a given claim looks at. -/
def blankJob : Job :=
  { id := [], title := [], url := [], location := [], date := [],
    applicants := [], description := [], company := [] }

/-- A curated record whose stored suitability string is `"10"`. -/
def exJob10 : Job := { blankJob with suitability := some "10".data }

/-- A curated record whose stored suitability string is `"2"`. -/
def exJob2 : Job := { blankJob with suitability := some "2".data }

/-- A curated record whose stored suitability string is `"3"`. -/
def exJob3 : Job := { blankJob with suitability := some "3".data }

/-- A job whose description is too short for language detection. -/
def exJobShort : Job := { blankJob with id := "1".data, description := "ab".data }

/-- A job with an English description. -/
def exJobEn : Job := { blankJob with id := "2".data, description := "hello".data }

/-- A `langdetect.detect` that classifies any text of at least five
characters as English and raises (as `langdetect` does) on shorter text. -/
def exDetect : Str → Except Err Str :=
  fun s => if s.length < 5 then .error .langError else .ok "en".data

/-- A `langdetect.detect` that classifies everything as English. -/
def exDetectEn : Str → Except Err Str := fun _ => .ok "en".data

/-- An embedding service that always succeeds. -/
def exEmbedOk : Str → Except Err Vec := fun _ => .ok [1]

/-- An embedding service that always raises a service error. -/
def exEmbedFail : Str → Except Err Vec := fun _ => .error .serviceError

/-- A parsed LLM response whose `Suitability` is the JSON boolean `true`:
`int(True) = 1 > 0`, so the job is kept, and `str(True) = "True"` is
stored. -/
def exRespBool : JVal :=
  .obj [("Suitability".data, .bool true), ("Job_summary".data, .str "a".data),
    ("Match_summary".data, .str "b".data)]

/-- A parsed LLM response with `Suitability` the JSON string `"3"`. -/
def exRespStr3 : JVal :=
  .obj [("Suitability".data, .str "3".data),
    ("Job_summary".data, .str "a".data),
    ("Match_summary".data, .str "b".data)]

/-- A parsed LLM response with a positive `Suitability` and a `Job_summary`
but no `Match_summary`. -/
def exRespNoMatch : JVal :=
  .obj [("Suitability".data, .int 3), ("Job_summary".data, .str "a".data)]

/-- `s` is the decimal string form of some integer greater than `0` (what
the claim "suitability is the string form of an integer greater than 0"
asserts of a stored suitability). -/
def isPosIntString (s : Str) : Prop :=
  ∃ n : Nat, 0 < n ∧ natToChars n = s

/-- The record produced by curating `blankJob` with `exRespStr3`. -/
def exCurated3 : Job :=
  { blankJob with
      summary := some (.str "a".data),
      match_s := some (.str "b".data),
      suitability := some "3".data }

/-- The record produced by curating `blankJob` with `exRespBool`: its stored
suitability is `str(True) = "True"`. -/
def exCuratedTrue : Job :=
  { blankJob with
      summary := some (.str "a".data),
      match_s := some (.str "b".data),
      suitability := some "True".data }

/-! ## Helper lemmas -/

theorem dropWhile_append_all {α : Type} {p : α → Bool} :
    ∀ (u v : List α), (∀ c ∈ u, p c = true) →
      (u ++ v).dropWhile p = v.dropWhile p
  | [], _, _ => rfl
  | c :: u, v, h => by
    simp only [List.cons_append, List.dropWhile_cons, h c (by simp)]
    exact dropWhile_append_all u v (fun d hd => h d (by simp [hd]))

theorem dedupGo_sublist {α : Type} [DecidableEq α] (seen : List α) :
    ∀ l : List α, (dedupGo seen l).Sublist l := by
  intro l
  induction l generalizing seen with
  | nil => simp [dedupGo]
  | cons d ds ih =>
    simp only [dedupGo]
    split
    · exact (ih seen).cons d
    · exact (ih (d :: seen)).cons₂ d

theorem dedupGo_not_mem_seen {α : Type} [DecidableEq α] :
    ∀ (l seen : List α) (x : α), x ∈ dedupGo seen l → x ∉ seen := by
  intro l
  induction l with
  | nil => intro seen x hx; simp [dedupGo] at hx
  | cons d ds ih =>
    intro seen x hx
    simp only [dedupGo] at hx
    split at hx
    · exact ih seen x hx
    · rcases List.mem_cons.mp hx with rfl | h
      · assumption
      · intro hs
        exact ih (d :: seen) x h (List.mem_cons_of_mem d hs)

theorem dedupGo_fixed {α : Type} [DecidableEq α] :
    ∀ (l seen₁ seen₂ : List α),
      (∀ x ∈ dedupGo seen₁ l, x ∉ seen₂) →
      dedupGo seen₂ (dedupGo seen₁ l) = dedupGo seen₁ l := by
  intro l
  induction l with
  | nil => intro seen₁ seen₂ _; simp [dedupGo]
  | cons d ds ih =>
    intro seen₁ seen₂ h
    by_cases hd : d ∈ seen₁
    · rw [show dedupGo seen₁ (d :: ds) = dedupGo seen₁ ds by
        simp [dedupGo, hd]] at h ⊢
      exact ih seen₁ seen₂ h
    · rw [show dedupGo seen₁ (d :: ds) = d :: dedupGo (d :: seen₁) ds by
        simp [dedupGo, hd]] at h ⊢
      have hd2 : d ∉ seen₂ := h d (List.mem_cons_self d _)
      rw [show dedupGo seen₂ (d :: dedupGo (d :: seen₁) ds)
            = d :: dedupGo (d :: seen₂) (dedupGo (d :: seen₁) ds) by
        simp [dedupGo, hd2]]
      congr 1
      apply ih (d :: seen₁) (d :: seen₂)
      intro x hx
      have hx1 : x ∉ d :: seen₁ := dedupGo_not_mem_seen ds (d :: seen₁) x hx
      have hx2 : x ∉ seen₂ := h x (List.mem_cons_of_mem d hx)
      intro hmem
      rcases List.mem_cons.mp hmem with rfl | hmem2
      · exact hx1 (List.mem_cons_self x _)
      · exact hx2 hmem2

/-- `dedupGo` only consults the *membership* of the seen set, never its
order. -/
theorem dedupGo_congr_seen {α : Type} [DecidableEq α] :
    ∀ (l seen₁ seen₂ : List α), (∀ a : α, a ∈ seen₁ ↔ a ∈ seen₂) →
      dedupGo seen₁ l = dedupGo seen₂ l := by
  intro l
  induction l with
  | nil => intro seen₁ seen₂ _; simp [dedupGo]
  | cons d ds ih =>
    intro seen₁ seen₂ h
    simp only [dedupGo]
    by_cases hd : d ∈ seen₁
    · rw [if_pos hd, if_pos ((h d).mp hd)]
      exact ih seen₁ seen₂ h
    · rw [if_neg hd, if_neg (fun hmem => hd ((h d).mpr hmem))]
      congr 1
      apply ih (d :: seen₁) (d :: seen₂)
      intro a
      simp only [List.mem_cons, h a]

/-- Marking `x` as seen is the same as deleting every later occurrence of
`x` from the remaining input: the characteristic equation of a
keep-*first*-occurrence deduplication. -/
theorem dedupGo_seen_cons_filter {α : Type} [DecidableEq α] :
    ∀ (t seen : List α) (x : α),
      dedupGo (x :: seen) t = dedupGo seen (t.filter (fun y => y != x)) := by
  intro t
  induction t with
  | nil => intro seen x; simp [dedupGo]
  | cons d ds ih =>
    intro seen x
    by_cases hdx : d = x
    · subst hdx
      rw [show (d :: ds).filter (fun y => y != d) = ds.filter (fun y => y != d) by
        simp [List.filter_cons]]
      rw [show dedupGo (d :: seen) (d :: ds) = dedupGo (d :: seen) ds by
        simp [dedupGo]]
      exact ih seen d
    · rw [show (d :: ds).filter (fun y => y != x)
            = d :: ds.filter (fun y => y != x) by
        simp [List.filter_cons, bne_iff_ne, hdx]]
      simp only [dedupGo]
      have hmem : d ∈ x :: seen ↔ d ∈ seen := by
        simp [List.mem_cons, hdx]
      by_cases hd : d ∈ seen
      · rw [if_pos (hmem.mpr hd), if_pos hd]
        exact ih seen x
      · rw [if_neg (fun hc => hd (hmem.mp hc)), if_neg hd]
        congr 1
        rw [show dedupGo (d :: x :: seen) ds = dedupGo (x :: d :: seen) ds from
          dedupGo_congr_seen ds _ _ (fun a => by
            simp only [List.mem_cons]
            tauto)]
        exact ih (d :: seen) x

/-! ## C7: exact-duplicate removal -/

/-- **C7.** For every list, `remove_exact_duplicates` never increases the
length, returns a sublist of its input, is a fixed point on its own output,
and keeps exactly the *first* occurrence of each record: on a nonempty list
it keeps the head and recurses on the tail with every later duplicate of
the head deleted — so the surviving elements appear in first-occurrence
order. -/
theorem remove_exact_duplicates_shrinks_ordered_idempotent
    {α : Type} [DecidableEq α] (l t : List α) (x : α) :
    (remove_exact_duplicates l).length ≤ l.length ∧
    (remove_exact_duplicates l).Sublist l ∧
    remove_exact_duplicates (remove_exact_duplicates l)
      = remove_exact_duplicates l ∧
    remove_exact_duplicates (x :: t)
      = x :: remove_exact_duplicates (t.filter (fun y => y != x)) := by
  refine ⟨(dedupGo_sublist [] l).length_le, dedupGo_sublist [] l,
    dedupGo_fixed l [] [] (fun x _ hx => by simp at hx), ?_⟩
  show dedupGo [] (x :: t) = x :: dedupGo [] (t.filter (fun y => y != x))
  rw [show dedupGo [] (x :: t) = x :: dedupGo [x] t by simp [dedupGo]]
  rw [dedupGo_seen_cons_filter t [] x]

/-! ## C5: JSON extraction from wrapping prose -/

/-- **C5.** JSON extraction (the model of line 226's
`re.sub(r"^[^{]*|[^}]*$", "", ·)`) removes exactly the characters before the
first `{` and after the last `}`: on a response that is a JSON object
wrapped in prose with no `{` before it and no `}` after it, it returns the
embedded object's text unchanged. -/
theorem extractJson_strips_wrapping_prose (p m q : Str)
    (hp : p.all (fun c => c != '\x7b') = true)
    (hq : q.all (fun c => c != '\x7d') = true) :
    extractJson (p ++ '\x7b' :: (m ++ '\x7d' :: q))
      = '\x7b' :: (m ++ ['\x7d']) := by
  unfold extractJson
  have hp' : ∀ c ∈ p, (c != '\x7b') = true := List.all_eq_true.mp hp
  have hq' : ∀ c ∈ q, (c != '\x7d') = true := List.all_eq_true.mp hq
  have h1 : (p ++ '\x7b' :: (m ++ '\x7d' :: q)).dropWhile
      (fun c => c != '\x7b') = '\x7b' :: (m ++ '\x7d' :: q) := by
    rw [dropWhile_append_all p _ hp']
    simp [List.dropWhile_cons]
  rw [h1]
  show (List.dropWhile (fun c => c != '\x7d')
      (('\x7b' :: (m ++ '\x7d' :: q)).reverse)).reverse
    = '\x7b' :: (m ++ ['\x7d'])
  have h2 : ('\x7b' :: (m ++ '\x7d' :: q)).reverse
      = q.reverse ++ ('\x7d' :: (m.reverse ++ ['\x7b'])) := by
    simp
  rw [h2, dropWhile_append_all q.reverse _
    (fun c hc => hq' c (List.mem_reverse.mp hc))]
  simp [List.dropWhile_cons]

/-- Witness for C5: the spec's own example,
`"Sure! {"Suitability":3,"Job_summary":"a","Match_summary":"b"} Thanks."`. -/
theorem extractJson_strips_wrapping_prose_witness :
    ("Sure! ".data.all (fun c => c != '\x7b') = true) ∧
    (" Thanks.".data.all (fun c => c != '\x7d') = true) ∧
    extractJson ("Sure! ".data ++ '\x7b' ::
        ("\"Suitability\":3,\"Job_summary\":\"a\",\"Match_summary\":\"b\"".data
          ++ '\x7d' :: " Thanks.".data))
      = '\x7b' ::
        ("\"Suitability\":3,\"Job_summary\":\"a\",\"Match_summary\":\"b\"".data
          ++ ['\x7d']) :=
  ⟨by decide, by decide,
    extractJson_strips_wrapping_prose _ _ _ (by decide) (by decide)⟩

/-! ## C3 / C4: failures inside the indexing loop are fatal -/

/-- **C3 counterexample.** The claim says a job whose description cannot be
classified is skipped and indexing continues.  In the code, `embed_jobs`
wraps `detect` in no `try`: with a corpus of two jobs whose first
description is too short to classify, the whole run aborts with the
detection error and the second (classifiable) job is never indexed. -/
theorem embed_jobs_detect_failure_fatal_cex :
    embed_jobs exDetect exEmbedOk [] [exJobShort, exJobEn]
      = .error .langError := rfl

/-- **C3 amended.** A failure of language detection on a job's description
is fatal: the error propagates out of `embed_jobs` and the remaining jobs
are not indexed (only a language *mismatch* is skipped). -/
theorem embed_jobs_detect_error_propagates
    (detect : Str → Except Err Str) (embedSvc : Str → Except Err Vec)
    (col : List Entry) (j : Job) (rest : List Job) (e : Err)
    (h : detect j.description = .error e) :
    embed_jobs detect embedSvc col (j :: rest) = .error e := by
  simp only [embed_jobs, h]
  rfl

/-- Witness for the amended C3. -/
theorem embed_jobs_detect_error_propagates_witness :
    exDetect exJobShort.description = .error .langError ∧
    embed_jobs exDetect exEmbedOk [] [exJobShort, exJobEn]
      = .error .langError :=
  ⟨rfl, embed_jobs_detect_error_propagates exDetect exEmbedOk []
    exJobShort [exJobEn] .langError rfl⟩

/-- **C4 counterexample.** The claim says a job whose embedding call fails
with a service error is skipped and indexing continues.  In the code,
`create_embedding` and its call site have no `try`: with a corpus of two
jobs and an embedding service that raises, the run aborts on the first job
and the second is never indexed. -/
theorem embed_jobs_embed_failure_fatal_cex :
    embed_jobs exDetectEn exEmbedFail [] [exJobEn, exJobShort]
      = .error .serviceError := rfl

/-- **C4 amended.** An embedding-service failure while indexing a job is
fatal: the error propagates out of `embed_jobs` (exactly as a profile
embedding failure is fatal), and the remaining jobs are not indexed. -/
theorem embed_jobs_embed_error_propagates
    (detect : Str → Except Err Str) (embedSvc : Str → Except Err Vec)
    (col : List Entry) (j : Job) (rest : List Job) (e : Err)
    (h1 : detect j.description = .ok LANG)
    (h2 : embedSvc (pyPreprocess (j.title ++ j.description ++ j.company))
      = .error e) :
    embed_jobs detect embedSvc col (j :: rest) = .error e := by
  simp only [embed_jobs, h1, create_embedding, h2]
  rfl

/-- Witness for the amended C4. -/
theorem embed_jobs_embed_error_propagates_witness :
    exDetectEn exJobEn.description = .ok LANG ∧
    exEmbedFail (pyPreprocess
      (exJobEn.title ++ exJobEn.description ++ exJobEn.company))
      = .error .serviceError ∧
    embed_jobs exDetectEn exEmbedFail [] [exJobEn, exJobShort]
      = .error .serviceError :=
  ⟨rfl, rfl, embed_jobs_embed_error_propagates exDetectEn exEmbedFail []
    exJobEn [exJobShort] .serviceError rfl rfl⟩

/-! ## C10: a dropped job can carry partial enrichment -/

/-- **C10.** A candidate whose parsed response has a positive integer
`Suitability` and a `Job_summary` but no `Match_summary` is not kept, yet
its record is returned with `summary` already overwritten by the response's
`Job_summary` (the `KeyError` on `Match_summary` strikes between the two
assignments), while `match` and `suitability` are left as they were. -/
theorem curateOne_missing_match_partial_enrichment
    (job : Job) (kvs : List (Str × JVal)) (v js : JVal) (n : Int)
    (hv : jlookup kvs "Suitability".data = some v)
    (hn : pyInt v = .ok n) (hpos : 0 < n)
    (hjs : jlookup kvs "Job_summary".data = some js)
    (hms : jlookup kvs "Match_summary".data = none) :
    curateOne job (.ok (.obj kvs)) = ({ job with summary := some js }, false) := by
  simp only [curateOne, hv, hn, hjs, hms, if_pos hpos]

/-- Witness for C10: on `exRespNoMatch` the job is dropped with `summary`
set and `match`/`suitability` still unset. -/
theorem curateOne_missing_match_partial_enrichment_witness :
    jlookup [("Suitability".data, JVal.int 3),
        ("Job_summary".data, JVal.str "a".data)] "Suitability".data
      = some (.int 3) ∧
    pyInt (.int 3) = .ok 3 ∧ (0 : Int) < 3 ∧
    jlookup [("Suitability".data, JVal.int 3),
        ("Job_summary".data, JVal.str "a".data)] "Job_summary".data
      = some (.str "a".data) ∧
    jlookup [("Suitability".data, JVal.int 3),
        ("Job_summary".data, JVal.str "a".data)] "Match_summary".data
      = none ∧
    curateOne blankJob (.ok exRespNoMatch)
      = ({ blankJob with summary := some (.str "a".data) }, false) :=
  ⟨rfl, rfl, by decide, rfl, rfl,
    curateOne_missing_match_partial_enrichment blankJob _ _ _ 3
      rfl rfl (by decide) rfl rfl⟩

/-! ## Curator: characterization of the kept jobs -/

/-- A job is appended to `final_jobs` exactly when its response parsed to an
object holding all three fields with an `int()`-coercible, positive
`Suitability`. -/
theorem curateOne_kept_characterization (job : Job)
    (parsed : Except Unit JVal) :
    (curateOne job parsed).2 = true ↔
      ∃ kvs v js ms n, parsed = .ok (.obj kvs) ∧
        jlookup kvs "Suitability".data = some v ∧
        jlookup kvs "Job_summary".data = some js ∧
        jlookup kvs "Match_summary".data = some ms ∧
        pyInt v = .ok n ∧ 0 < n := by
  constructor
  · intro h
    cases hp : parsed with
    | error u => rw [hp] at h; simp [curateOne] at h
    | ok resp =>
      rw [hp] at h
      cases resp with
      | obj kvs =>
        cases hv : jlookup kvs "Suitability".data with
        | none => simp [curateOne, hv] at h
        | some v =>
          cases hn : pyInt v with
          | error u => simp [curateOne, hv, hn] at h
          | ok k =>
            by_cases hk : 0 < k
            · cases hjs : jlookup kvs "Job_summary".data with
              | none => simp [curateOne, hv, hn, hjs, hk] at h
              | some js =>
                cases hms : jlookup kvs "Match_summary".data with
                | none => simp [curateOne, hv, hn, hjs, hms, hk] at h
                | some ms =>
                  exact ⟨kvs, v, js, ms, k, rfl, hv, hjs, hms, hn, hk⟩
            · simp [curateOne, hv, hn, hk] at h
      | null => simp [curateOne] at h
      | bool b => simp [curateOne] at h
      | int nn => simp [curateOne] at h
      | str s => simp [curateOne] at h
      | arr xs => simp [curateOne] at h
  · rintro ⟨kvs, v, js, ms, n, hp, hv, hjs, hms, hn, hpos⟩
    subst hp
    simp [curateOne, hv, hjs, hms, hn, hpos]

/-- Shape of the record a kept job contributes to `final_jobs`. -/
theorem curateOne_kept_result (job : Job) (parsed : Except Unit JVal)
    (h : (curateOne job parsed).2 = true) :
    ∃ v n js ms, pyInt v = .ok n ∧ 0 < n ∧
      (curateOne job parsed).1 = { job with
          summary := some js,
          match_s := some ms,
          suitability := some (pyStr v) } := by
  rcases (curateOne_kept_characterization job parsed).mp h with
    ⟨kvs, v, js, ms, n, hp, hv, hjs, hms, hn, hpos⟩
  subst hp
  refine ⟨v, n, js, ms, hn, hpos, ?_⟩
  simp [curateOne, hv, hjs, hms, hn, hpos]

/-- The loop equation: each candidate contributes independently and the loop
always continues with the rest. -/
theorem curateJobs_cons (job : Job) (parsed : Except Unit JVal)
    (rest : List (Job × Except Unit JVal)) :
    curateJobs ((job, parsed) :: rest) =
      (if (curateOne job parsed).2 then [(curateOne job parsed).1] else [])
        ++ curateJobs rest := by
  simp only [curateJobs]
  cases hb : (curateOne job parsed).2 <;> simp [hb]

/-- **C2.** A candidate job is kept for ranking iff its parsed response is
an object containing `Suitability`, `Job_summary` and `Match_summary` whose
`Suitability` coerces via `int()` to a value strictly greater than `0`; and
whatever the outcome for one candidate (including a parse failure,
`.error`), the loop's result on the remaining candidates is unaffected —
the run continues. -/
theorem curateOne_kept_iff_and_run_continues (job : Job)
    (parsed : Except Unit JVal) (rest : List (Job × Except Unit JVal)) :
    ((curateOne job parsed).2 = true ↔
      ∃ kvs v js ms n, parsed = .ok (.obj kvs) ∧
        jlookup kvs "Suitability".data = some v ∧
        jlookup kvs "Job_summary".data = some js ∧
        jlookup kvs "Match_summary".data = some ms ∧
        pyInt v = .ok n ∧ 0 < n) ∧
    curateJobs ((job, parsed) :: rest) =
      (if (curateOne job parsed).2 then [(curateOne job parsed).1] else [])
        ++ curateJobs rest :=
  ⟨curateOne_kept_characterization job parsed, curateJobs_cons job parsed rest⟩

/-! ## C8: enrichment of the records that reach the Ranker -/

theorem digitChar_isDigit (d : Nat) : (digitChar d).isDigit = true := by
  unfold digitChar
  rcases Nat.lt_or_ge d 10 with h | h
  · interval_cases d <;> decide
  · rw [List.getD_eq_default _ _ (by simpa using h)]
    decide

theorem natToChars_mem_isDigit :
    ∀ (n : Nat), ∀ c ∈ natToChars n, c.isDigit = true := by
  intro n
  induction n using Nat.strong_induction_on with
  | _ n ih =>
    intro c hc
    rw [natToChars] at hc
    split at hc
    · rcases List.mem_singleton.mp hc with rfl
      exact digitChar_isDigit n
    · rcases List.mem_append.mp hc with h1 | h2
      · exact ih (n / 10) (Nat.div_lt_self (by omega) (by omega)) c h1
      · rcases List.mem_singleton.mp h2 with rfl
        exact digitChar_isDigit (n % 10)

theorem not_isPosIntString_True : ¬ isPosIntString "True".data := by
  rintro ⟨n, _, heq⟩
  have hT : 'T'.isDigit = true := by
    apply natToChars_mem_isDigit n
    rw [heq]
    decide
  exact absurd hT (by decide)

/-- **C8 counterexample.** A response whose `Suitability` is the JSON
boolean `true` passes the positivity check (`int(True) = 1 > 0`), so the job
reaches the Ranker — but it carries `suitability = str(True) = "True"`,
which is not the string form of any integer greater than `0`. -/
theorem curated_suitability_not_always_int_string_cex :
    curateJobs [(blankJob, .ok exRespBool)] = [exCuratedTrue] ∧
    exCuratedTrue.suitability = some "True".data ∧
    ¬ isPosIntString "True".data :=
  ⟨rfl, rfl, not_isPosIntString_True⟩

/-- **C8 amended.** Every record in the curated list handed to the final
sort has all three enrichment fields set, and its suitability is `str(v)`
for the response's `Suitability` value `v`, which `int()`-coerces to an
integer greater than `0` (this is the decimal string of that integer only
when `v` is itself a plain integer — a JSON `true`, for instance, stores
`"True"`). -/
theorem curated_jobs_enrichment_invariant
    (inputs : List (Job × Except Unit JVal)) (j : Job)
    (h : j ∈ curateJobs inputs) :
    j.summary.isSome = true ∧ j.match_s.isSome = true ∧
    ∃ v n, pyInt v = .ok n ∧ 0 < n ∧ j.suitability = some (pyStr v) := by
  induction inputs with
  | nil => simp [curateJobs] at h
  | cons x rest ih =>
    rcases x with ⟨job, parsed⟩
    rw [curateJobs_cons] at h
    rcases List.mem_append.mp h with h1 | h2
    · by_cases hb : (curateOne job parsed).2 = true
      · rw [if_pos hb] at h1
        rcases List.mem_singleton.mp h1 with rfl
        rcases curateOne_kept_result job parsed hb with
          ⟨v, n, js, ms, hn, hpos, hshape⟩
        rw [hshape]
        exact ⟨rfl, rfl, v, n, hn, hpos, rfl⟩
      · rw [if_neg (by simpa using hb)] at h1
        simp at h1
    · exact ih h2

/-- Witness for the amended C8. -/
theorem curated_jobs_enrichment_invariant_witness :
    exCurated3 ∈ curateJobs [(blankJob, .ok exRespStr3)] ∧
    (exCurated3.summary.isSome = true ∧ exCurated3.match_s.isSome = true ∧
      ∃ v n, pyInt v = .ok n ∧ 0 < n ∧
        exCurated3.suitability = some (pyStr v)) :=
  ⟨List.mem_singleton.mpr rfl,
    curated_jobs_enrichment_invariant [(blankJob, .ok exRespStr3)]
      exCurated3 (List.mem_singleton.mpr rfl)⟩

/-! ## Order lemmas for CPython's string comparison -/

theorem strLt_irrefl : ∀ a : Str, strLt a a = false
  | [] => rfl
  | c :: cs => by
    unfold strLt
    rw [if_neg (Nat.lt_irrefl _), if_neg (Nat.lt_irrefl _)]
    exact strLt_irrefl cs

theorem strLt_asymm : ∀ a b : Str, strLt a b = true → strLt b a = false
  | [], [], h => by simp [strLt] at h
  | [], _ :: _, _ => rfl
  | _ :: _, [], h => by simp [strLt] at h
  | a :: as, b :: bs, h => by
    unfold strLt at h ⊢
    by_cases h1 : a.toNat < b.toNat
    · rw [if_neg (by omega), if_pos h1]
    · rw [if_neg h1] at h
      by_cases h2 : b.toNat < a.toNat
      · rw [if_pos h2] at h
        simp at h
      · rw [if_neg h2] at h
        rw [if_neg h2, if_neg h1]
        exact strLt_asymm as bs h

theorem strLt_false_trans : ∀ a b c : Str,
    strLt a b = false → strLt b c = false → strLt a c = false := by
  intro a
  induction a with
  | nil =>
    intro b c hab hbc
    cases b with
    | nil => exact hbc
    | cons y ys => simp [strLt] at hab
  | cons x xs ih =>
    intro b c hab hbc
    cases c with
    | nil => rfl
    | cons z zs =>
      cases b with
      | nil => simp [strLt] at hbc
      | cons y ys =>
        unfold strLt at hab hbc ⊢
        by_cases h1 : x.toNat < y.toNat
        · rw [if_pos h1] at hab
          simp at hab
        · rw [if_neg h1] at hab
          by_cases h2 : y.toNat < z.toNat
          · rw [if_pos h2] at hbc
            simp at hbc
          · rw [if_neg h2] at hbc
            have hxz : ¬ x.toNat < z.toNat := by omega
            rw [if_neg hxz]
            by_cases h3 : z.toNat < x.toNat
            · rw [if_pos h3]
            · rw [if_neg h3]
              have hyx : ¬ y.toNat < x.toNat := by omega
              have hzy : ¬ z.toNat < y.toNat := by omega
              rw [if_neg hyx] at hab
              rw [if_neg hzy] at hbc
              exact ih ys zs hab hbc

/-! ## Behaviour of the modelled sort on uniformly string-keyed lists -/

theorem keyIsStr_exists_str {k : SortKey} (h : keyIsStr k = true) :
    ∃ s, k = .s s := by
  cases k with
  | s cs => exact ⟨cs, rfl⟩
  | i n => simp [keyIsStr] at h

theorem insertRevE_ok (x : Job) (r : List Job)
    (hx : keyIsStr (sortKey x) = true)
    (hr : ∀ y ∈ r, keyIsStr (sortKey y) = true)
    (hsorted : r.Pairwise
      (fun a b => pyLtKey (sortKey a) (sortKey b) = .ok false)) :
    ∃ r', insertRevE x r = .ok r' ∧
      r'.Perm (x :: r) ∧
      r'.Pairwise (fun a b => pyLtKey (sortKey a) (sortKey b) = .ok false) ∧
      ∀ k, r'.filter (fun j => sortKey j == k)
        = (x :: r).filter (fun j => sortKey j == k) := by
  induction r with
  | nil =>
    exact ⟨[x], rfl, List.Perm.refl _, by simp, fun k => rfl⟩
  | cons y ys ih =>
    obtain ⟨sx, hsx⟩ := keyIsStr_exists_str hx
    obtain ⟨sy, hsy⟩ := keyIsStr_exists_str (hr y (List.mem_cons_self y ys))
    have hcmp : pyLtKey (sortKey x) (sortKey y) = .ok (strLt sx sy) := by
      rw [hsx, hsy]; rfl
    cases hlt : strLt sx sy with
    | false =>
      refine ⟨x :: y :: ys, ?_, List.Perm.refl _, ?_, fun k => rfl⟩
      · simp only [insertRevE, hcmp, hlt]
        rfl
      · refine List.Pairwise.cons ?_ hsorted
        intro z hz
        rcases List.mem_cons.mp hz with rfl | hzys
        · rw [hsx, hsy]
          simpa [pyLtKey] using hlt
        · obtain ⟨sz, hsz⟩ := keyIsStr_exists_str (hr z (by simp [hzys]))
          have hyz : pyLtKey (sortKey y) (sortKey z) = .ok false :=
            (List.pairwise_cons.mp hsorted).1 z hzys
          rw [hsy, hsz] at hyz
          simp only [pyLtKey, Except.ok.injEq] at hyz
          rw [hsx, hsz]
          simp only [pyLtKey, Except.ok.injEq]
          exact strLt_false_trans sx sy sz hlt hyz
    | true =>
      obtain ⟨r'', h1, h2, h3, h4⟩ :=
        ih (fun z hz => hr z (by simp [hz])) (List.pairwise_cons.mp hsorted).2
      refine ⟨y :: r'', ?_, ?_, ?_, ?_⟩
      · simp only [insertRevE, hcmp, hlt, h1]
        rfl
      · exact (h2.cons y).trans (List.Perm.swap x y ys)
      · refine List.Pairwise.cons ?_ h3
        intro z hz
        have hz' : z ∈ x :: ys := h2.mem_iff.mp hz
        rcases List.mem_cons.mp hz' with rfl | hzys
        · rw [hsy, hsx]
          simp only [pyLtKey, Except.ok.injEq]
          exact strLt_asymm sx sy hlt
        · obtain ⟨sz, hsz⟩ := keyIsStr_exists_str (hr z (by simp [hzys]))
          have hyz : pyLtKey (sortKey y) (sortKey z) = .ok false :=
            (List.pairwise_cons.mp hsorted).1 z hzys
          exact hyz
      · intro k
        have hxy : ¬((sortKey x == k) = true ∧ (sortKey y == k) = true) := by
          rintro ⟨hk1, hk2⟩
          have e1 : sortKey x = k := by simpa using hk1
          have e2 : sortKey y = k := by simpa using hk2
          have : sx = sy := by
            have := e1.trans e2.symm
            rw [hsx, hsy] at this
            exact SortKey.s.inj this
          rw [this] at hlt
          rw [strLt_irrefl sy] at hlt
          simp at hlt
        have h4k := h4 k
        by_cases hky : (sortKey y == k) = true <;>
          by_cases hkx : (sortKey x == k) = true
        · exact absurd ⟨hkx, hky⟩ hxy
        · simp [List.filter_cons, hky, hkx, h4k]
        · simp [List.filter_cons, hky, hkx, h4k]
        · simp [List.filter_cons, hky, hkx, h4k]

theorem pySortRevE_ok (l : List Job)
    (hl : ∀ y ∈ l, keyIsStr (sortKey y) = true) :
    ∃ r, pySortRevE l = .ok r ∧
      r.Perm l ∧
      r.Pairwise (fun a b => pyLtKey (sortKey a) (sortKey b) = .ok false) ∧
      ∀ k, r.filter (fun j => sortKey j == k)
        = l.filter (fun j => sortKey j == k) := by
  induction l with
  | nil => exact ⟨[], rfl, List.Perm.refl _, by simp, fun k => rfl⟩
  | cons x xs ih =>
    obtain ⟨r1, hr1, hperm1, hsort1, hfil1⟩ :=
      ih (fun z hz => hl z (by simp [hz]))
    obtain ⟨r', h1, h2, h3, h4⟩ := insertRevE_ok x r1
      (hl x (List.mem_cons_self x xs))
      (fun z hz => hl z (by simp [hperm1.mem_iff.mp hz]))
      hsort1
    refine ⟨r', ?_, ?_, h3, ?_⟩
    · simp only [pySortRevE, hr1]
      exact h1
    · exact h2.trans (hperm1.cons x)
    · intro k
      rw [h4 k]
      simp only [List.filter_cons]
      by_cases hkx : (sortKey x == k) = true
      · rw [if_pos hkx, if_pos hkx, hfil1 k]
      · rw [if_neg hkx, if_neg hkx, hfil1 k]

/-! ## C1: what the final sort actually does on curated lists -/

/-- Every record kept by the curation loop carries a positive,
`int()`-coercible suitability stored as a string, so its sort key is a
string key. -/
theorem curateJobs_suitability (inputs : List (Job × Except Unit JVal)) :
    ∀ j ∈ curateJobs inputs,
      ∃ v n, pyInt v = .ok n ∧ 0 < n ∧ j.suitability = some (pyStr v) := by
  induction inputs with
  | nil => intro j hj; simp [curateJobs] at hj
  | cons x rest ih =>
    rcases x with ⟨job, parsed⟩
    intro j hj
    rw [curateJobs_cons] at hj
    rcases List.mem_append.mp hj with h1 | h2
    · by_cases hb : (curateOne job parsed).2 = true
      · rw [if_pos hb] at h1
        rcases List.mem_singleton.mp h1 with rfl
        rcases curateOne_kept_result job parsed hb with
          ⟨v, n, js, ms, hn, hpos, hshape⟩
        rw [hshape]
        exact ⟨v, n, hn, hpos, rfl⟩
      · rw [if_neg (by simpa using hb)] at h1
        simp at h1
    · exact ih j h2

theorem curateJobs_keys_str (inputs : List (Job × Except Unit JVal)) :
    ∀ j ∈ curateJobs inputs, keyIsStr (sortKey j) = true := by
  intro j hj
  rcases curateJobs_suitability inputs j hj with ⟨v, n, _, _, hsuit⟩
  simp [sortKey, hsuit, keyIsStr]

/-- **C1 counterexample.** Curated records store suitability as a *string*,
and line 237 compares those strings: with stored scores `"10"` and `"2"`
(both producible by the curation loop, which only checks `int(v) > 0`), the
sort puts `"2"` before `"10"` because `"10" < "2"` lexicographically — the
output is not sorted descending under numeric comparison. -/
theorem rank_not_numeric_cex :
    rank [exJob10, exJob2] = .ok [exJob2, exJob10] ∧
    sortedDescNumB [exJob2, exJob10] = false :=
  ⟨rfl, rfl⟩

/-- **C1 amended.** On every curated list (the output of the curation loop,
which contains no record with suitability ≤ 0), the Ranker succeeds and
returns a permutation of its input that is sorted descending under
*lexicographic string* comparison of the stored suitability strings (which
coincides with numeric order only while all scores are single digits), and
the sort is stable: records with equal suitability keep their relative
order. -/
theorem rank_curated_lex_sorted_stable_perm
    (inputs : List (Job × Except Unit JVal)) :
    ∃ r, rank (curateJobs inputs) = .ok r ∧
      r.Perm (curateJobs inputs) ∧
      r.Pairwise (fun a b => pyLtKey (sortKey a) (sortKey b) = .ok false) ∧
      (∀ k, r.filter (fun j => sortKey j == k)
        = (curateJobs inputs).filter (fun j => sortKey j == k)) ∧
      ∀ j ∈ curateJobs inputs,
        ∃ v n, pyInt v = .ok n ∧ 0 < n ∧ j.suitability = some (pyStr v) := by
  obtain ⟨r, h1, h2, h3, h4⟩ :=
    pySortRevE_ok (curateJobs inputs) (curateJobs_keys_str inputs)
  exact ⟨r, h1, h2, h3, h4, curateJobs_suitability inputs⟩

/-! ## C9: the default key `2` cannot rank against stored suitabilities -/

theorem pyLtKey_ok_of_same_kind {k1 k2 : SortKey}
    (h : keyIsStr k1 = keyIsStr k2) : ∃ b, pyLtKey k1 k2 = .ok b := by
  cases k1 <;> cases k2 <;> simp_all [keyIsStr, pyLtKey]

theorem pyLtKey_error_of_mixed {k1 k2 : SortKey}
    (h : keyIsStr k1 ≠ keyIsStr k2) : pyLtKey k1 k2 = .error () := by
  cases k1 <;> cases k2 <;> simp_all [keyIsStr, pyLtKey]

theorem insertRevE_ok_of_uniform (c : Bool) (x : Job) (r : List Job)
    (hx : keyIsStr (sortKey x) = c)
    (hr : ∀ y ∈ r, keyIsStr (sortKey y) = c) :
    ∃ r', insertRevE x r = .ok r' ∧ r'.Perm (x :: r) := by
  induction r with
  | nil => exact ⟨[x], rfl, List.Perm.refl _⟩
  | cons y ys ih =>
    obtain ⟨b, hb⟩ := pyLtKey_ok_of_same_kind
      (hx.trans (hr y (List.mem_cons_self y ys)).symm)
    cases b with
    | false =>
      refine ⟨x :: y :: ys, ?_, List.Perm.refl _⟩
      simp only [insertRevE, hb]
      rfl
    | true =>
      obtain ⟨r'', h1, h2⟩ := ih (fun z hz => hr z (by simp [hz]))
      refine ⟨y :: r'', ?_, (h2.cons y).trans (List.Perm.swap x y ys)⟩
      simp only [insertRevE, hb, h1]
      rfl

theorem pySortRevE_ok_of_uniform (c : Bool) (l : List Job)
    (hl : ∀ y ∈ l, keyIsStr (sortKey y) = c) :
    ∃ r, pySortRevE l = .ok r ∧ r.Perm l := by
  induction l with
  | nil => exact ⟨[], rfl, List.Perm.refl _⟩
  | cons x xs ih =>
    obtain ⟨r1, hr1, hperm1⟩ := ih (fun z hz => hl z (by simp [hz]))
    obtain ⟨r', h1, h2⟩ := insertRevE_ok_of_uniform c x r1
      (hl x (List.mem_cons_self x xs))
      (fun z hz => hl z (by simp [hperm1.mem_iff.mp hz]))
    refine ⟨r', ?_, h2.trans (hperm1.cons x)⟩
    simp only [pySortRevE, hr1]
    exact h1

/-- A sort over keys of both kinds always raises: the int-keyed and
string-keyed elements must eventually be compared directly. -/
theorem pySortRevE_mixed_error : ∀ l : List Job,
    (∃ a ∈ l, keyIsStr (sortKey a) = false) →
    (∃ b ∈ l, keyIsStr (sortKey b) = true) →
    pySortRevE l = .error () := by
  intro l
  induction l with
  | nil => rintro ⟨a, ha, _⟩ _; simp at ha
  | cons x xs ih =>
    rintro ⟨a, ha, haf⟩ ⟨b, hb, hbt⟩
    by_cases hxs_f : ∃ a ∈ xs, keyIsStr (sortKey a) = false
    · by_cases hxs_t : ∃ b ∈ xs, keyIsStr (sortKey b) = true
      · have herr := ih hxs_f hxs_t
        simp only [pySortRevE, herr]
        rfl
      · -- xs is uniformly int-keyed and nonempty; x must be string-keyed
        have hxs_all : ∀ z ∈ xs, keyIsStr (sortKey z) = false := by
          intro z hz
          rcases Bool.eq_false_or_eq_true (keyIsStr (sortKey z)) with h | h
          · exact absurd ⟨z, hz, h⟩ hxs_t
          · exact h
        have hxt : keyIsStr (sortKey x) = true := by
          rcases List.mem_cons.mp hb with rfl | hbxs
          · exact hbt
          · exact absurd (hxs_all b hbxs) (by rw [hbt]; simp)
        obtain ⟨r, hr, hperm⟩ := pySortRevE_ok_of_uniform false xs hxs_all
        obtain ⟨a0, ha0, ha0f⟩ := hxs_f
        have ha0r : a0 ∈ r := hperm.mem_iff.mpr ha0
        cases r with
        | nil => simp at ha0r
        | cons y ys =>
          have hyf : keyIsStr (sortKey y) = false :=
            hxs_all y (hperm.mem_iff.mp (List.mem_cons_self y ys))
          have hmix : pyLtKey (sortKey x) (sortKey y) = .error () :=
            pyLtKey_error_of_mixed (by rw [hxt, hyf]; simp)
          simp only [pySortRevE, hr]
          show insertRevE x (y :: ys) = Except.error ()
          simp only [insertRevE, hmix]
          rfl
    · -- xs is uniformly string-keyed (or empty); x must be int-keyed
      have hxs_all : ∀ z ∈ xs, keyIsStr (sortKey z) = true := by
        intro z hz
        rcases Bool.eq_false_or_eq_true (keyIsStr (sortKey z)) with h | h
        · exact h
        · exact absurd ⟨z, hz, h⟩ hxs_f
      have hxf : keyIsStr (sortKey x) = false := by
        rcases List.mem_cons.mp ha with rfl | haxs
        · exact haf
        · exact absurd (hxs_all a haxs) (by rw [haf]; simp)
      have hbxs : b ∈ xs := by
        rcases List.mem_cons.mp hb with rfl | h
        · exact absurd hxf (by rw [hbt]; simp)
        · exact h
      obtain ⟨r, hr, hperm⟩ := pySortRevE_ok_of_uniform true xs hxs_all
      have hbr : b ∈ r := hperm.mem_iff.mpr hbxs
      cases r with
      | nil => simp at hbr
      | cons y ys =>
        have hyt : keyIsStr (sortKey y) = true :=
          hxs_all y (hperm.mem_iff.mp (List.mem_cons_self y ys))
        have hmix : pyLtKey (sortKey x) (sortKey y) = .error () :=
          pyLtKey_error_of_mixed (by rw [hxf, hyt]; simp)
        simp only [pySortRevE, hr]
        show insertRevE x (y :: ys) = Except.error ()
        simp only [insertRevE, hmix]
        rfl

/-- **C9 counterexample.** A record with no suitability field gets the
*integer* default key `2` while curated records carry *string* keys; with
one record of each kind, line 237 raises a `TypeError` instead of ranking
the unscored record below an explicit `"3"`. -/
theorem rank_default_two_cex :
    rank [blankJob, exJob3] = .error () := rfl

/-- **C9 amended.** A record missing the suitability field is keyed by the
default integer `2`, but whenever the list also contains a record with a
stored (string) suitability, the sort fails with a type error rather than
ranking the unscored record anywhere. -/
theorem rank_mixed_suitability_error (l : List Job)
    (h1 : ∃ a ∈ l, a.suitability = none)
    (h2 : ∃ b ∈ l, b.suitability.isSome = true) :
    rank l = .error () := by
  apply pySortRevE_mixed_error l
  · rcases h1 with ⟨a, ha, hnone⟩
    exact ⟨a, ha, by simp [sortKey, hnone, keyIsStr]⟩
  · rcases h2 with ⟨b, hb, hsome⟩
    rcases Option.isSome_iff_exists.mp hsome with ⟨s, hs⟩
    exact ⟨b, hb, by simp [sortKey, hs, keyIsStr]⟩

/-- Witness for the amended C9. -/
theorem rank_mixed_suitability_error_witness :
    (∃ a ∈ [blankJob, exJob3], a.suitability = none) ∧
    (∃ b ∈ [blankJob, exJob3], b.suitability.isSome = true) ∧
    rank [blankJob, exJob3] = .error () :=
  ⟨⟨blankJob, by simp, rfl⟩, ⟨exJob3, by simp, rfl⟩,
    rank_mixed_suitability_error [blankJob, exJob3]
      ⟨blankJob, by simp, rfl⟩ ⟨exJob3, by simp, rfl⟩⟩

/-! ## C6: the preprocessing equals the spec's collapse-and-trim -/

theorem dropWhile_head_false {α : Type} {p : α → Bool} :
    ∀ {l : List α} {c : α} {cs : List α},
      l.dropWhile p = c :: cs → p c = false := by
  intro l
  induction l with
  | nil => intro c cs h; simp [List.dropWhile] at h
  | cons x xs ih =>
    intro c cs h
    rw [List.dropWhile_cons] at h
    by_cases hx : p x = true
    · rw [if_pos hx] at h
      exact ih h
    · rw [if_neg hx] at h
      injection h with h1 _
      rw [← h1]
      simpa using hx

theorem pySplit_eq (l : Str) :
    pySplit l = if (l.dropWhile isPySpace).isEmpty then []
      else ((l.dropWhile isPySpace).takeWhile (fun x => !isPySpace x)) ::
        pySplit ((l.dropWhile isPySpace).dropWhile (fun x => !isPySpace x)) := by
  rw [pySplit]
  exact dite_eq_ite

theorem pySplit_nil : pySplit [] = [] := by
  rw [pySplit_eq]
  rfl

theorem pySplit_space {c : Char} {cs : Str} (h : isPySpace c = true) :
    pySplit (c :: cs) = pySplit cs := by
  rw [pySplit_eq, pySplit_eq cs]
  simp only [List.dropWhile_cons, h, if_true]

theorem pySplit_word {c : Char} {cs : Str} (h : isPySpace c = false) :
    pySplit (c :: cs) =
      (c :: cs.takeWhile (fun x => !isPySpace x)) ::
        pySplit (cs.dropWhile (fun x => !isPySpace x)) := by
  rw [pySplit_eq]
  have hd : (c :: cs).dropWhile isPySpace = c :: cs := by
    simp [List.dropWhile_cons, h]
  rw [hd]
  simp only [List.isEmpty_cons, if_false]
  rw [List.takeWhile_cons, List.dropWhile_cons]
  simp [h]

theorem collapseWs_nil : collapseWs [] = [] := by
  rw [collapseWs]

theorem collapseWs_space {c : Char} {cs : Str} (h : isPySpace c = true) :
    collapseWs (c :: cs) = ' ' :: collapseWs (cs.dropWhile isPySpace) := by
  rw [collapseWs]
  simp [h]

theorem collapseWs_nonspace {c : Char} {cs : Str} (h : isPySpace c = false) :
    collapseWs (c :: cs) = c :: collapseWs cs := by
  rw [collapseWs]
  simp [h]

theorem trimEndWs_cons_nonspace {c : Char} {cs : Str}
    (h : isPySpace c = false) :
    trimEndWs (c :: cs) = c :: trimEndWs cs := by
  simp only [trimEndWs]
  by_cases hr : (trimEndWs cs).isEmpty = true
  · rw [if_pos hr, if_neg (by simp [h]), List.isEmpty_iff.mp hr]
  · rw [if_neg hr]

theorem trimEndWs_cons_space {c : Char} {cs : Str}
    (h : isPySpace c = true) :
    trimEndWs (c :: cs) =
      if (trimEndWs cs).isEmpty then [] else c :: trimEndWs cs := by
  simp only [trimEndWs]
  by_cases hr : (trimEndWs cs).isEmpty = true
  · rw [if_pos hr, if_pos hr, if_pos h]
  · rw [if_neg hr, if_neg hr]

theorem joinWords_cons (w : Str) (ws : List Str) :
    joinWords (w :: ws) =
      w ++ if ws.isEmpty then [] else ' ' :: joinWords ws := by
  cases ws with
  | nil => simp [joinWords]
  | cons w2 ws2 => simp [joinWords]

theorem dropWhile_space_collapse_dropWhile (u : Str) :
    List.dropWhile isPySpace (collapseWs (u.dropWhile isPySpace))
      = collapseWs (u.dropWhile isPySpace) := by
  cases hw : u.dropWhile isPySpace with
  | nil => simp [collapseWs_nil, List.dropWhile]
  | cons d ds =>
    have hd : isPySpace d = false := dropWhile_head_false hw
    rw [collapseWs_nonspace hd, List.dropWhile_cons]
    simp [hd]

theorem trimStartWs_collapseWs (t : Str) :
    trimStartWs (collapseWs t) = collapseWs (t.dropWhile isPySpace) := by
  cases t with
  | nil => simp [collapseWs_nil, trimStartWs, List.dropWhile]
  | cons c cs =>
    by_cases hc : isPySpace c = true
    · rw [collapseWs_space hc,
        show (c :: cs).dropWhile isPySpace = cs.dropWhile isPySpace by
          simp [List.dropWhile_cons, hc]]
      show List.dropWhile isPySpace
        (' ' :: collapseWs (cs.dropWhile isPySpace)) = _
      rw [List.dropWhile_cons]
      simp only [show isPySpace ' ' = true from rfl, if_true]
      exact dropWhile_space_collapse_dropWhile cs
    · have hcf : isPySpace c = false := by simpa using hc
      rw [collapseWs_nonspace hcf,
        show (c :: cs).dropWhile isPySpace = c :: cs by
          simp [List.dropWhile_cons, hcf],
        collapseWs_nonspace hcf]
      show List.dropWhile isPySpace (c :: collapseWs cs) = c :: collapseWs cs
      rw [List.dropWhile_cons]
      simp [hcf]

theorem pySplit_head_ne_nil {u w : Str} {ws : List Str}
    (h : pySplit u = w :: ws) : w ≠ [] := by
  rw [pySplit_eq] at h
  by_cases he : (u.dropWhile isPySpace).isEmpty = true
  · rw [if_pos he] at h
    simp at h
  · rw [if_neg he] at h
    injection h with h1 _
    cases ht : u.dropWhile isPySpace with
    | nil => rw [ht] at he; simp at he
    | cons c cs =>
      have hc : isPySpace c = false := dropWhile_head_false ht
      rw [ht, List.takeWhile_cons] at h1
      simp only [hc, Bool.not_false, if_true] at h1
      rw [← h1]
      simp

theorem joinWords_pySplit_isEmpty (u : Str) :
    (joinWords (pySplit u)).isEmpty = (pySplit u).isEmpty := by
  cases h : pySplit u with
  | nil => simp [joinWords]
  | cons w ws =>
    have hw : w ≠ [] := pySplit_head_ne_nil h
    rw [joinWords_cons]
    cases w with
    | nil => exact absurd rfl hw
    | cons a as => simp

theorem pySplit_join_split : ∀ (n : Nat) (t : Str), t.length ≤ n →
    (joinWords (pySplit t)
      = trimEndWs (collapseWs (t.dropWhile isPySpace))) ∧
    (t.takeWhile (fun x => !isPySpace x) ++
      (if (pySplit (t.dropWhile (fun x => !isPySpace x))).isEmpty then []
       else ' ' :: joinWords (pySplit (t.dropWhile (fun x => !isPySpace x))))
      = trimEndWs (collapseWs t)) := by
  intro n
  induction n with
  | zero =>
    intro t ht
    have hnil : t = [] := List.eq_nil_of_length_eq_zero (Nat.le_zero.mp ht)
    subst hnil
    constructor
    · simp [pySplit_nil, joinWords, collapseWs_nil, trimEndWs,
        List.dropWhile]
    · simp [pySplit_nil, joinWords, collapseWs_nil, trimEndWs,
        List.takeWhile, List.dropWhile]
  | succ n ih =>
    intro t ht
    constructor
    · cases t with
      | nil =>
        simp [pySplit_nil, joinWords, collapseWs_nil, trimEndWs,
          List.dropWhile]
      | cons c cs =>
        have hcs : cs.length ≤ n := by
          simp only [List.length_cons] at ht
          omega
        by_cases hc : isPySpace c = true
        · rw [pySplit_space hc,
            show (c :: cs).dropWhile isPySpace = cs.dropWhile isPySpace by
              simp [List.dropWhile_cons, hc]]
          exact (ih cs hcs).1
        · have hcf : isPySpace c = false := by simpa using hc
          rw [pySplit_word hcf, joinWords_cons,
            show (c :: cs).dropWhile isPySpace = c :: cs by
              simp [List.dropWhile_cons, hcf],
            collapseWs_nonspace hcf, trimEndWs_cons_nonspace hcf,
            List.cons_append]
          congr 1
          exact (ih cs hcs).2
    · cases t with
      | nil =>
        simp [pySplit_nil, joinWords, collapseWs_nil, trimEndWs,
          List.takeWhile, List.dropWhile]
      | cons d ds =>
        have hds : ds.length ≤ n := by
          simp only [List.length_cons] at ht
          omega
        by_cases hd : isPySpace d = true
        · rw [show (d :: ds).takeWhile (fun x => !isPySpace x) = [] by
              rw [List.takeWhile_cons]; simp [hd],
            show (d :: ds).dropWhile (fun x => !isPySpace x) = d :: ds by
              rw [List.dropWhile_cons]; simp [hd],
            collapseWs_space hd,
            trimEndWs_cons_space (show isPySpace ' ' = true from rfl),
            pySplit_space hd]
          have hP := (ih ds hds).1
          rw [List.nil_append, ← hP, joinWords_pySplit_isEmpty]
        · have hdf : isPySpace d = false := by simpa using hd
          rw [show (d :: ds).takeWhile (fun x => !isPySpace x)
                = d :: ds.takeWhile (fun x => !isPySpace x) by
              rw [List.takeWhile_cons]; simp [hdf],
            show (d :: ds).dropWhile (fun x => !isPySpace x)
                = ds.dropWhile (fun x => !isPySpace x) by
              rw [List.dropWhile_cons]; simp [hdf],
            collapseWs_nonspace hdf, trimEndWs_cons_nonspace hdf,
            List.cons_append]
          congr 1
          exact (ih ds hds).2

/-- **C6.** The Embedder's preprocessing (line 56: delete non-ASCII
characters, `split()`, re-`join` with single spaces) equals the spec's
description — delete every character outside `0x00`–`0x7F`, collapse every
whitespace run to a single space, trim leading and trailing whitespace —
and the service receives exactly that normalized text. -/
theorem create_embedding_sends_spec_normalized
    (embedSvc : Str → Except Err Vec) (text : Str) :
    create_embedding embedSvc text = embedSvc (specNormalize text) := by
  unfold create_embedding specNormalize pyPreprocess
  congr 1
  rw [trimStartWs_collapseWs]
  exact (pySplit_join_split (removeNonAscii text).length
    (removeNonAscii text) le_rfl).1

end JobMatch
